import Mathlib

/-
Verification of the docusign-exporter core pipeline against its
natural-language specification.

The definitions below are a shallow embedding of the TypeScript service
(`DocusignConfig`, `DocusignService`) from the repository source.  Pure
computations (configuration merging and validation, token stripping, the
chunk partition, the retry classification) are translated directly;
effectful code is modelled by explicit state passing:

* the retry executor `_retryableRequest` becomes a recursive function over
  an environment `Nat → Except ReqError α` giving the outcome of each
  numbered attempt; emitted events and the `setTimeout` waits are collected
  in an explicit result record;
* the pacing helper `_rateLimit` becomes arithmetic over rational
  timestamps (JS `Date.now()` values and the possibly fractional
  `1000 / rateLimit` interval);
* the paginated discovery loop and the chunked download loop become
  recursive functions over the scripted responses, a per-envelope outcome
  oracle, per-chunk completion orders (the nondeterministic order in which
  the concurrently dispatched downloads of one chunk settle), and a
  cancellation schedule giving the value of the `isCancelled` flag at each
  loop checkpoint.

JS numbers are modelled as ℚ where fractions matter and as Nat where the
source only ever produces naturals.
-/

/-- One discoverable document-bearing unit (source: `interface Envelope`). -/
structure Envelope where
  envelopeId : String
  status : String
  emailSubject : Option String
  sentDateTime : Option String
  completedDateTime : Option String
deriving DecidableEq, Repr

/-- The lifecycle notifications emitted by `DocusignService` (source:
`DocusignEvents`), with the payload fields each `emit` call carries. -/
inductive Event where
  | searchStarted (fromDate toDate : String)
  | envelopesFound (count total : Nat)
  | downloadStarted (envelopeId : String)
  | downloadComplete (envelopeId : String) (progress : ℚ)
  | downloadError (envelopeId : String) (error : String)
  | retrying (attempt : Nat) (delay : ℚ) (error : String)
  | tokenExpired
  | allDownloadsComplete (total : Nat)
  | cancelled
deriving DecidableEq, Repr

/-- The failure a single attempt of a request can produce: an
`AxiosError` carrying an optional response status, the error message and
the optional `response.data.message`, or any other thrown value. -/
inductive ReqError where
  | axios (status : Option Nat) (message : String) (dataMessage : Option String)
  | other (message : String)
deriving DecidableEq, Repr

/-- A terminal error of the executor: either one of the `new Error(...)`
throws inside `_retryableRequest`, or the re-thrown non-axios error. -/
inductive RunErr where
  | thrown (message : String)
  | reraised (message : String)
deriving DecidableEq, Repr

/-- JS `a || b` for an optional string, where the empty string is falsy. -/
def jsOrStr : Option String → String → String
  | none, d => d
  | some s, d => if s = "" then d else s

/-- JS `a || b` for an optional number, where `0` is falsy. -/
def jsOrNum : Option ℚ → ℚ → ℚ
  | none, d => d
  | some x, d => if x = 0 then d else x

/-- The message of the error thrown on a 401 response. -/
def tokenExpiredMessage : String := "Token expired. Please refresh your authentication token."

/-- JS string interpolation of `error.response?.status`. -/
def statusText : Option Nat → String
  | some n => toString n
  | none => "undefined"

/-- The formatted message of the `DocuSign API Error` throw. -/
def apiErrorMessage (status : Option Nat) (message : String) : String :=
  "DocuSign API Error: " ++ message ++ " (Status: " ++ statusText status ++ ")"

/-- The retry classification `status === 429 || (status ?? 0) >= 500`. -/
def retryableStatus (status : Option Nat) : Bool :=
  status == some 429 || decide (500 ≤ status.getD 0)

/-- The observable outcome of one logical call through the executor: the
events it emitted, the `setTimeout` backoff waits it performed (in order),
and the final result or terminal error. -/
structure ExecResult (α : Type) where
  events : List Event
  waits : List ℚ
  result : Except RunErr α
deriving Repr

/-- Shallow embedding of `DocusignService._retryableRequest`.  `env n`
is the outcome of the n-th invocation of `requestFn` (attempts are
numbered from 1 as in the source).  The pacing wait of `_rateLimit` is
modelled separately by `dispatchTime`; it emits no events and does not
interact with the retry classification. -/
def retryableRequest {α : Type} (retryAttempts : Nat) (retryDelay : ℚ)
    (env : Nat → Except ReqError α) (attempt : Nat) : ExecResult α :=
  match env attempt with
  | .ok v => { events := [], waits := [], result := .ok v }
  | .error (.other m) => { events := [], waits := [], result := .error (.reraised m) }
  | .error (.axios status message dataMessage) =>
    if status == some 401 then
      { events := [.tokenExpired], waits := [], result := .error (.thrown tokenExpiredMessage) }
    else if retryableStatus status then
      if h : attempt ≤ retryAttempts then
        let delay := retryDelay * 2 ^ (attempt - 1)
        let rest := retryableRequest retryAttempts retryDelay env (attempt + 1)
        { events := .retrying attempt delay message :: rest.events,
          waits := delay :: rest.waits,
          result := rest.result }
      else
        { events := [], waits := [],
          result := .error (.thrown (apiErrorMessage status (jsOrStr dataMessage message))) }
    else
      { events := [], waits := [],
        result := .error (.thrown (apiErrorMessage status (jsOrStr dataMessage message))) }
termination_by retryAttempts + 1 - attempt
decreasing_by omega

/-- A run in which every attempt fails with a retryable, non-401 axios
error performs exactly `retryAttempts` backoff retries and then surfaces
the final attempt's failure as the formatted API error. -/
theorem retryableRequest_all_fail {α : Type} (ra : Nat) (rd : ℚ)
    (env : Nat → Except ReqError α)
    (st : Nat → Option Nat) (ms : Nat → String) (dm : Nat → Option String)
    (henv : ∀ n, env n = .error (.axios (st n) (ms n) (dm n)))
    (h401 : ∀ n, st n ≠ some 401)
    (hretry : ∀ n, retryableStatus (st n) = true) :
    ∀ k a, ra + 1 - a = k → 1 ≤ a → a ≤ ra + 1 →
    retryableRequest ra rd env a =
      { events := (List.range (ra + 1 - a)).map
          (fun i => .retrying (a + i) (rd * 2 ^ (a + i - 1)) (ms (a + i))),
        waits := (List.range (ra + 1 - a)).map (fun i => rd * 2 ^ (a + i - 1)),
        result := .error (.thrown (apiErrorMessage (st (ra + 1))
                    (jsOrStr (dm (ra + 1)) (ms (ra + 1))))) } := by
  intro k
  induction k with
  | zero =>
    intro a hk h1 h2
    have ha : a = ra + 1 := by omega
    subst ha
    rw [retryableRequest, henv]
    have hb : (st (ra + 1) == some 401) = false := by
      simp [beq_eq_false_iff_ne, h401 (ra + 1)]
    simp [hb, hretry (ra + 1)]
  | succ k ih =>
    intro a hk h1 h2
    have ha : a ≤ ra := by omega
    rw [retryableRequest, henv]
    have hb : (st a == some 401) = false := by
      simp [beq_eq_false_iff_ne, h401 a]
    have hrec := ih (a + 1) (by omega) (by omega) (by omega)
    simp only [hb, Bool.false_eq_true, if_false, hretry a, if_true, dif_pos ha, hrec]
    have hrange : List.range (ra + 1 - a) = 0 :: (List.range (ra + 1 - (a + 1))).map (· + 1) := by
      have : ra + 1 - a = (ra + 1 - (a + 1)) + 1 := by omega
      rw [this, List.range_succ_eq_map]
    simp only [ExecResult.mk.injEq]
    refine ⟨?_, ?_, trivial⟩
    · rw [hrange]
      simp only [List.map_cons, List.map_map]
      refine congrArg₂ _ (by simp) ?_
      apply List.map_congr_left
      intro i _
      simp only [Function.comp_apply]
      have e1 : a + (i + 1) = a + 1 + i := by omega
      rw [e1]
    · rw [hrange]
      simp only [List.map_cons, List.map_map]
      refine congrArg₂ _ (by simp) ?_
      apply List.map_congr_left
      intro i _
      simp only [Function.comp_apply]
      have e1 : a + (i + 1) = a + 1 + i := by omega
      rw [e1]

/-- C1: a request failing with 429/5xx on every attempt is retried exactly
while the attempt number is within the retry ceiling; the nth retry waits
`retryDelay * 2 ^ (n - 1)` ms and emits `retrying` with the attempt
number, the computed delay, and the cause; once the ceiling is exceeded
the run ends with a single terminal API error carrying the final
attempt's status and message, and performs no further wait. -/
theorem c1_retry_backoff_and_ceiling {α : Type} (ra : Nat) (rd : ℚ)
    (env : Nat → Except ReqError α)
    (st : Nat → Option Nat) (ms : Nat → String) (dm : Nat → Option String)
    (henv : ∀ n, env n = .error (.axios (st n) (ms n) (dm n)))
    (h401 : ∀ n, st n ≠ some 401)
    (hretry : ∀ n, retryableStatus (st n) = true) :
    retryableRequest ra rd env 1 =
      { events := (List.range ra).map
          (fun i => .retrying (i + 1) (rd * 2 ^ i) (ms (i + 1))),
        waits := (List.range ra).map (fun i => rd * 2 ^ i),
        result := .error (.thrown (apiErrorMessage (st (ra + 1))
                    (jsOrStr (dm (ra + 1)) (ms (ra + 1))))) } := by
  have h := retryableRequest_all_fail ra rd env st ms dm henv h401 hretry ra 1 (by omega)
    (by omega) (by omega)
  rw [h]
  simp only [ExecResult.mk.injEq, Nat.add_sub_cancel]
  refine ⟨?_, ?_, trivial⟩
  · apply List.map_congr_left
    intro i _
    have e2 : 1 + i - 1 = i := by omega
    have e1 : 1 + i = i + 1 := by omega
    rw [e2, e1]
  · apply List.map_congr_left
    intro i _
    have e2 : 1 + i - 1 = i := by omega
    rw [e2]

/-- C1 witness: retry ceiling 3, base delay 1000, every attempt failing
with status 500 and message "boom": three retries waiting 1000, 2000,
4000 ms, then the terminal API error. -/
theorem c1_retry_backoff_and_ceiling_witness :
    retryableRequest (α := Unit) 3 1000
        (fun _ => .error (.axios (some 500) "boom" none)) 1 =
      { events := [.retrying 1 1000 "boom", .retrying 2 2000 "boom", .retrying 3 4000 "boom"],
        waits := [1000, 2000, 4000],
        result := .error (.thrown "DocuSign API Error: boom (Status: 500)") } := by
  have hne : (some 500 : Option Nat) ≠ some 401 := by decide
  have hrs : retryableStatus (some 500) = true := by decide
  have h := c1_retry_backoff_and_ceiling (α := Unit) 3 1000
    (fun _ => .error (.axios (some 500) "boom" none))
    (fun _ => some 500) (fun _ => "boom") (fun _ => none)
    (fun _ => rfl) (fun _ => hne) (fun _ => hrs)
  refine h.trans ?_
  simp only [ExecResult.mk.injEq]
  refine ⟨?_, ?_, ?_⟩
  · norm_num [List.range_succ]
  · norm_num [List.range_succ]
  · have hs : apiErrorMessage (some 500) (jsOrStr none "boom")
        = "DocuSign API Error: boom (Status: 500)" := by decide
    rw [hs]

/-- C2: a 401 failure is never retried: the executor emits exactly one
`tokenExpired` notification, performs no wait, and terminates the logical
call with the authentication-expired error, for every retry ceiling. -/
theorem c2_unauthorized_never_retried {α : Type} (ra : Nat) (rd : ℚ)
    (env : Nat → Except ReqError α) (message : String) (dataMessage : Option String)
    (h : env 1 = .error (.axios (some 401) message dataMessage)) :
    retryableRequest ra rd env 1 =
      { events := [.tokenExpired], waits := [],
        result := .error (.thrown tokenExpiredMessage) } := by
  rw [retryableRequest, h]
  simp

/-- C2 witness: a concrete 401 failure with retry ceiling 3. -/
theorem c2_unauthorized_never_retried_witness :
    retryableRequest (α := Unit) 3 1000
        (fun _ => .error (.axios (some 401) "Unauthorized" none)) 1 =
      { events := [.tokenExpired], waits := [],
        result := .error (.thrown tokenExpiredMessage) } :=
  c2_unauthorized_never_retried 3 1000
    (fun _ => .error (.axios (some 401) "Unauthorized" none)) "Unauthorized" none rfl

/-- The minimum interval between dispatches, `1000 / this.config.rateLimit`
(a JS number division, hence ℚ). -/
def minRequestInterval (rateLimit : ℚ) : ℚ := 1000 / rateLimit

/-- The `setTimeout` wait `_rateLimit` performs when called at instant
`now` while the shared `lastRequestTime` field holds `last`. -/
def rateLimitWait (rateLimit last now : ℚ) : ℚ :=
  if now - last < minRequestInterval rateLimit then
    minRequestInterval rateLimit - (now - last)
  else 0

/-- The instant at which a `_rateLimit` call started at `now` (with the
shared `lastRequestTime` field holding `last`) returns and the request is
dispatched; the source then stores this instant (`Date.now()` after the
wait) back into `lastRequestTime`. -/
def dispatchTime (rateLimit last now : ℚ) : ℚ :=
  now + rateLimitWait rateLimit last now

/-- An event-loop schedule of two overlapping `_rateLimit` calls: the
second call starts while the first is still inside its `setTimeout` wait,
so both read the same stale `lastRequestTime` value `last` (each task
writes the field only after its wait completes); each request is then
dispatched at the instant its own wait ends. -/
def racedDispatchTimes (rateLimit last t1 t2 : ℚ) : ℚ × ℚ :=
  (dispatchTime rateLimit last t1, dispatchTime rateLimit last t2)

/-- C3 counterexample: with `requests-per-second = 2` (minimum interval
500 ms), `lastRequestTime = 0` and two concurrent download tasks entering
`_rateLimit` at t = 1 ms and t = 2 ms — both before either wait ends at
t = 500 ms, so the schedule is realizable — both requests are dispatched
at t = 500 ms: the two dispatch instants are 0 ms apart, less than the
claimed 500 ms minimum. -/
theorem c3_concurrent_pacing_counterexample :
    (racedDispatchTimes 2 0 1 2).1 = 500 ∧ (racedDispatchTimes 2 0 1 2).2 = 500 ∧
    (racedDispatchTimes 2 0 1 2).2 - (racedDispatchTimes 2 0 1 2).1 < minRequestInterval 2 := by
  norm_num [racedDispatchTimes, dispatchTime, rateLimitWait, minRequestInterval]

/-- C3 (amended): for two consecutive dispatches whose `_rateLimit` calls
do not overlap — the second call starts only after the first has written
the shared `lastRequestTime`, which then holds the first dispatch instant
— the second dispatch occurs no earlier than `1000 / rateLimit` ms after
the first, whatever the instants `now1`, `now2` at which the two calls
enter `_rateLimit`. -/
theorem c3_sequential_pacing_gap (rateLimit last now1 now2 : ℚ) :
    minRequestInterval rateLimit ≤
      dispatchTime rateLimit (dispatchTime rateLimit last now1) now2
        - dispatchTime rateLimit last now1 := by
  set d1 := dispatchTime rateLimit last now1 with hd1
  unfold dispatchTime rateLimitWait
  split
  · linarith
  · rename_i hge
    push_neg at hge
    linarith

/-- The observable state of a `DocusignService` session relevant to
`cancel()`: the `isCancelled` flag and the emitted notification log. -/
structure ServiceState where
  isCancelled : Bool
  events : List Event
deriving DecidableEq, Repr

/-- The state of a freshly constructed service. -/
def initialServiceState : ServiceState := { isCancelled := false, events := [] }

/-- Shallow embedding of `DocusignService.cancel`: sets the flag and
emits a `cancelled` notification — on every call. -/
def cancel (s : ServiceState) : ServiceState :=
  { isCancelled := true, events := s.events ++ [.cancelled] }

/-- C9 counterexample: calling `cancel()` a second time on a fresh
session is not a no-op on the observable session: it emits a second
`cancelled` notification, so the notification log after two calls
differs from the log after one. -/
theorem c9_cancel_second_call_counterexample :
    (cancel (cancel initialServiceState)).isCancelled
        = (cancel initialServiceState).isCancelled ∧
    (cancel (cancel initialServiceState)).events
        ≠ (cancel initialServiceState).events := by
  decide

/-- C9 (amended): `cancel()` always sets the cancellation flag to true
and never clears it — a second call leaves the flag unchanged — but every
call, including repeated ones, appends one more `cancelled` notification
to the emitted log, so the second call is not a no-op on the notification
stream. -/
theorem c9_cancel_flag_idempotent (s : ServiceState) :
    (cancel s).isCancelled = true ∧
    (cancel (cancel s)).isCancelled = (cancel s).isCancelled ∧
    (cancel (cancel s)).events = (cancel s).events ++ [.cancelled] := by
  simp [cancel]

/-- Remove the first occurrence of `pat` from `s`, scanning left to
right: JS `s.replace(pat, '')` for a plain-string pattern. -/
def stripFirst (pat : List Char) : List Char → List Char
  | [] => []
  | c :: rest =>
    if pat.isPrefixOf (c :: rest) then (c :: rest).drop pat.length
    else c :: stripFirst pat rest

/-- Whether `pat` occurs as a contiguous substring of `s`. -/
def containsSub (pat : List Char) : List Char → Bool
  | [] => pat.isEmpty
  | c :: rest => pat.isPrefixOf (c :: rest) || containsSub pat rest

/-- The stored credential token:
`(config.token || ... || '').replace('Bearer ', '')`. -/
def storedToken (input : String) : String :=
  String.mk (stripFirst ("Bearer ".toList) input.toList)

/-- The `authorization` header built from the stored token. -/
def authHeader (token : String) : String := "Bearer " ++ token

/-- C10 counterexample: for the bare token "xBearer y" (which contains
"Bearer " internally), the caller passing it with a "Bearer " prefix gets
stored token "xBearer y", while the caller passing it bare gets "xy" —
the stored tokens and hence the authorization headers differ. -/
theorem c10_bearer_strip_counterexample :
    storedToken "Bearer xBearer y" = "xBearer y" ∧
    storedToken "xBearer y" = "xy" ∧
    storedToken "Bearer xBearer y" ≠ storedToken "xBearer y" ∧
    authHeader (storedToken "Bearer xBearer y") ≠ authHeader (storedToken "xBearer y") := by
  refine ⟨by decide, by decide, by decide, ?_⟩
  intro h
  have := congrArg String.toList h
  revert this
  decide

theorem isPrefixOf_append_self (p t : List Char) : p.isPrefixOf (p ++ t) = true := by
  induction p with
  | nil => cases t <;> rfl
  | cons c p ih => simp [List.isPrefixOf, ih]

theorem stripFirst_append_self (p t : List Char) (hp : p ≠ []) :
    stripFirst p (p ++ t) = t := by
  match p with
  | [] => exact absurd rfl hp
  | c :: p' =>
    rw [List.cons_append, stripFirst]
    have hpre : (c :: p').isPrefixOf (c :: (p' ++ t)) = true := isPrefixOf_append_self (c :: p') t
    rw [if_pos hpre]
    show List.drop p'.length (p' ++ t) = t
    exact List.drop_left p' t

theorem stripFirst_of_not_contains (p : List Char) :
    ∀ s, containsSub p s = false → stripFirst p s = s := by
  intro s
  induction s with
  | nil => intro _; rfl
  | cons c rest ih =>
    intro h
    rw [containsSub] at h
    simp only [Bool.or_eq_false_iff] at h
    rw [stripFirst, h.1]
    simp [ih h.2]

/-- C10 (amended): construction strips the first occurrence of the
substring "Bearer " from the supplied token; provided the bare token does
not itself contain "Bearer ", a caller passing "Bearer " + token obtains
the same stored token — and the same authorization header, with no
"Bearer Bearer" duplication — as a caller passing the bare token. -/
theorem c10_bearer_strip_normalizes (t : String)
    (h : containsSub ("Bearer ".toList) t.toList = false) :
    storedToken ("Bearer " ++ t) = storedToken t ∧
    storedToken t = t ∧
    authHeader (storedToken ("Bearer " ++ t)) = authHeader (storedToken t) := by
    have h1 : storedToken ("Bearer " ++ t) = t := by
      unfold storedToken
      rw [show ("Bearer " ++ t).toList = "Bearer ".toList ++ t.toList from rfl]
      rw [stripFirst_append_self _ _ (by decide)]
      rfl
    have h2 : storedToken t = t := by
      unfold storedToken
      rw [stripFirst_of_not_contains _ _ h]
      rfl
    exact ⟨h1.trans h2.symm, h2, by rw [h1, h2]⟩

/-- C10 amended witness: a normal token with no internal "Bearer ". -/
theorem c10_bearer_strip_normalizes_witness :
    containsSub ("Bearer ".toList) "tok123".toList = false ∧
    storedToken ("Bearer " ++ "tok123") = storedToken "tok123" ∧
    storedToken "tok123" = "tok123" := by
  have h : containsSub ("Bearer ".toList) "tok123".toList = false := by decide
  have hc := c10_bearer_strip_normalizes "tok123" h
  exact ⟨h, hc.1, hc.2.1⟩

/-- The state the paging loop of `getEnvelopesWebApi` threads: the
accumulated `this.envelopes` and the `params.start_position` offset. -/
structure DiscoveryState where
  envelopes : List Envelope
  startPosition : Nat
deriving DecidableEq, Repr

/-- The state at entry of a fresh session: `envelopes = []`,
`start_position: 0`. -/
def initialDiscoveryState : DiscoveryState := { envelopes := [], startPosition := 0 }

/-- The fixed page size `count: 100`. -/
def pageCount : Nat := 100

/-- One iteration body of the paging loop: `resp` is the
`response.data.envelopes` field (absent or present).  If present, the
records are appended and the offset is set to the new accumulated length;
the returned flag is `hasMore = (envelopes?.length ?? 0) === count`. -/
def discoverStep (resp : Option (List Envelope)) (st : DiscoveryState) :
    DiscoveryState × Bool :=
  match resp with
  | some evs =>
    ({ envelopes := st.envelopes ++ evs,
       startPosition := (st.envelopes ++ evs).length },
      evs.length == pageCount)
  | none => (st, ((0 : Nat) == pageCount))

/-- The paging loop of `getEnvelopesWebApi`.  `resps` scripts the
executor outcome of each successive listing request; `cancelAt i` is the
value of `isCancelled` when the while-condition is checked before the
i-th request.  Returns the final state (or the propagated executor
error) and the number of requests issued.  An execution that runs off
the end of `resps` is truncated; the theorems below only consider runs
that stop within the script. -/
def discoverRun (cancelAt : Nat → Bool)
    (resps : List (Except RunErr (Option (List Envelope))))
    (st : DiscoveryState) (i : Nat) : Except RunErr DiscoveryState × Nat :=
  if cancelAt i then (.ok st, 0)
  else
    match resps with
    | [] => (.ok st, 0)
    | .error e :: _ => (.error e, 1)
    | .ok resp :: rest =>
      let p := discoverStep resp st
      if p.2 then
        let q := discoverRun cancelAt rest p.1 (i + 1)
        (q.1, q.2 + 1)
      else (.ok p.1, 1)

/-- Uncancelled discovery over full pages followed by one short page:
consumes exactly those pages, appends their concatenation, and stops. -/
theorem discoverRun_full_then_short (lastPage : List Envelope)
    (extra : List (Except RunErr (Option (List Envelope))))
    (hshort : lastPage.length < pageCount) :
    ∀ (full : List (List Envelope)) (st : DiscoveryState) (i : Nat),
    (∀ p ∈ full, p.length = pageCount) →
    discoverRun (fun _ => false)
        ((full ++ [lastPage]).map (fun p => Except.ok (some p)) ++ extra) st i =
      (.ok { envelopes := st.envelopes ++ (full ++ [lastPage]).flatten,
             startPosition := (st.envelopes ++ (full ++ [lastPage]).flatten).length },
       full.length + 1) := by
  intro full
  induction full with
  | nil =>
    intro st i _
    have hb : (lastPage.length == pageCount) = false := by
      simp only [beq_eq_false_iff_ne]
      omega
    simp [discoverRun, discoverStep, hb]
  | cons p full ih =>
    intro st i hfull
    have hp : p.length = pageCount := hfull p (by simp)
    have hb : (p.length == pageCount) = true := by simp [hp]
    rw [List.cons_append, List.map_cons, List.cons_append, discoverRun]
    simp only [Bool.false_eq_true, if_false, discoverStep, hb, if_true]
    rw [ih _ _ (fun q hq => hfull q (by simp [hq]))]
    simp [List.append_assoc]

/-- C4: uncancelled discovery over pages that are all exactly the page
size (100) followed by one short page issues exactly one request per
page and no request after the short page (even though further responses
`extra` were scripted); the final Result Set is the concatenation of the
returned pages in request order, the final offset equals the number of
records accumulated, and each page step preserves the invariant that the
offset equals the number of records accumulated so far. -/
theorem c4_discovery_paging (full : List (List Envelope)) (lastPage : List Envelope)
    (extra : List (Except RunErr (Option (List Envelope))))
    (hfull : ∀ p ∈ full, p.length = pageCount)
    (hshort : lastPage.length < pageCount) :
    (discoverRun (fun _ => false)
        ((full ++ [lastPage]).map (fun p => Except.ok (some p)) ++ extra)
        initialDiscoveryState 0 =
      (.ok { envelopes := (full ++ [lastPage]).flatten,
             startPosition := (full ++ [lastPage]).flatten.length },
       full.length + 1))
    ∧ (∀ resp st, st.startPosition = st.envelopes.length →
        (discoverStep resp st).1.startPosition = (discoverStep resp st).1.envelopes.length) := by
  constructor
  · have h := discoverRun_full_then_short lastPage extra hshort full initialDiscoveryState 0 hfull
    simpa [initialDiscoveryState] using h
  · intro resp st hst
    cases resp with
    | some evs => simp [discoverStep]
    | none => simp [discoverStep, hst]

/-- A minimal concrete envelope for witnesses. -/
def sampleEnvelope (id : String) : Envelope :=
  { envelopeId := id, status := "completed", emailSubject := none,
    sentDateTime := none, completedDateTime := none }

/-- C4 witness: one full page of 100 records, then a short page of 1;
a further scripted response is never requested. -/
theorem c4_discovery_paging_witness :
    (∀ p ∈ [List.replicate 100 (sampleEnvelope "a")], p.length = pageCount) ∧
    ([sampleEnvelope "b"] : List Envelope).length < pageCount ∧
    discoverRun (fun _ => false)
        (([List.replicate 100 (sampleEnvelope "a")] ++ [[sampleEnvelope "b"]]).map
            (fun p => Except.ok (some p)) ++ [Except.ok (some [sampleEnvelope "c"])])
        initialDiscoveryState 0 =
      (.ok { envelopes := ([List.replicate 100 (sampleEnvelope "a")] ++ [[sampleEnvelope "b"]]).flatten,
             startPosition := ([List.replicate 100 (sampleEnvelope "a")] ++ [[sampleEnvelope "b"]]).flatten.length },
       1 + 1) := by
  have h1 : ∀ p ∈ [List.replicate 100 (sampleEnvelope "a")], p.length = pageCount := by
    simp [pageCount]
  have h2 : ([sampleEnvelope "b"] : List Envelope).length < pageCount := by
    simp [pageCount]
  have h := (c4_discovery_paging [List.replicate 100 (sampleEnvelope "a")] [sampleEnvelope "b"]
    [Except.ok (some [sampleEnvelope "c"])] h1 h2).1
  exact ⟨h1, h2, h⟩

/-- The optional construction parameters (source:
`DocusignConfigOptions`). -/
structure DocusignConfigOptions where
  token : Option String
  accountId : Option String
  userId : Option String
  cookie : Option String
  environment : Option String
  outputFormat : Option String
  outputPath : Option String
  maxConcurrent : Option ℚ
  retryAttempts : Option ℚ
  retryDelay : Option ℚ
  rateLimit : Option ℚ
deriving Repr

/-- The validated, immutable session configuration (source:
`DocusignConfig`). -/
structure DocusignConfig where
  token : String
  accountId : String
  userId : String
  cookie : String
  environment : String
  outputFormat : String
  outputPath : String
  maxConcurrent : ℚ
  retryAttempts : ℚ
  retryDelay : ℚ
  rateLimit : ℚ
deriving DecidableEq, Repr

/-- `DocusignConfig.validate`: the checks in source order; the first
failing check throws, its message naming the failing field. -/
def validateConfig (c : DocusignConfig) : Except String DocusignConfig :=
  if c.token = "" then .error "DocuSign token is required"
  else if c.accountId = "" then .error "DocuSign account ID is required"
  else if c.cookie = "" then .error "DocuSign cookie is required"
  else if c.environment ≠ "production" ∧ c.environment ≠ "demo" then
    .error "Environment must be either \"production\" or \"demo\""
  else if c.maxConcurrent < 1 then .error "maxConcurrent must be at least 1"
  else if c.retryAttempts < 0 then .error "retryAttempts must be non-negative"
  else if c.retryDelay < 0 then .error "retryDelay must be non-negative"
  else if c.rateLimit < 1 then .error "rateLimit must be at least 1"
  else .ok c

/-- The `DocusignConfig` constructor: each field is the supplied option
merged with its default by JS `||` (so `0` and `""` fall back to the
default), the token is stripped of its first "Bearer " occurrence,
`maxConcurrent` is capped at 5, and the result is validated once.  The
`process.env` fallbacks are modelled as unset. -/
def mkDocusignConfig (o : DocusignConfigOptions) : Except String DocusignConfig :=
  validateConfig
    { token := storedToken (jsOrStr o.token ""),
      accountId := jsOrStr o.accountId "",
      userId := jsOrStr o.userId "",
      cookie := jsOrStr o.cookie "",
      environment := jsOrStr o.environment "production",
      outputFormat := jsOrStr o.outputFormat "combined",
      outputPath := jsOrStr o.outputPath "./docusign_downloads",
      maxConcurrent := min (jsOrNum o.maxConcurrent 3) 5,
      retryAttempts := jsOrNum o.retryAttempts 3,
      retryDelay := jsOrNum o.retryDelay 1000,
      rateLimit := jsOrNum o.rateLimit 5 }

/-- Otherwise-valid options with chosen numeric bounds. -/
def boundsOpts (mc ra rd rl : Option ℚ) : DocusignConfigOptions :=
  { token := some "t", accountId := some "a", userId := none, cookie := some "c",
    environment := none, outputFormat := none, outputPath := none,
    maxConcurrent := mc, retryAttempts := ra, retryDelay := rd, rateLimit := rl }

/-- The configuration all four zero bounds construct: every zero falls
back to its default before validation ever sees it. -/
def defaultedConfig : DocusignConfig :=
  { token := "t", accountId := "a", userId := "", cookie := "c",
    environment := "production", outputFormat := "combined",
    outputPath := "./docusign_downloads",
    maxConcurrent := 3, retryAttempts := 3, retryDelay := 1000, rateLimit := 5 }

/-- C7 evidence: construction with any (or all) of the numeric bounds
set to 0 — a non-positive value — succeeds, because the JS `||` default
merge treats 0 as falsy and replaces it with the default before
validation runs; the repository's own test suite instead expects
`maxConcurrent: 0` and `rateLimit: 0` to be rejected.  Construction with
`retryAttempts = 0` or `retryDelay = 0` likewise succeeds (and even a
directly validated 0 would pass their non-negativity checks). -/
theorem c7_zero_bounds_accepted :
    mkDocusignConfig (boundsOpts (some 0) (some 0) (some 0) (some 0)) = .ok defaultedConfig ∧
    mkDocusignConfig (boundsOpts (some 0) none none none) = .ok defaultedConfig ∧
    mkDocusignConfig (boundsOpts none none none (some 0)) = .ok defaultedConfig ∧
    validateConfig defaultedConfig = .ok defaultedConfig := by
  have hmin : min (3 : ℚ) 5 = 3 := by norm_num
  have htok : storedToken "t" = "t" := by decide
  refine ⟨?_, ?_, ?_, ?_⟩ <;>
    · simp [mkDocusignConfig, boundsOpts, jsOrNum, jsOrStr, hmin, htok, defaultedConfig,
        validateConfig]
      norm_num

/-- The chunk partition for a positive chunk size `m' + 1`: the source
slice loop `for (let i = 0; i < length; i += max) push(slice(i, i + max))`. -/
def chunksOfPos {α : Type} (m' : Nat) : List α → List (List α)
  | [] => []
  | a :: rest => ((a :: rest).take (m' + 1)) :: chunksOfPos m' (rest.drop m')
termination_by l => l.length
decreasing_by simp only [List.length_drop, List.length_cons]; omega

/-- The chunk partition of `downloadDocuments` for chunk size
`maxConcurrent = m`.  A zero chunk size makes the source slice loop spin
forever; it is unreachable behind the validated configuration and is
modelled as producing no chunks. -/
def chunksOf {α : Type} (m : Nat) (l : List α) : List (List α) :=
  match m with
  | 0 => []
  | m' + 1 => chunksOfPos m' l

/-- The terminal events of one download task and the updated shared
`downloadedCount`: on success the counter is incremented and
`downloadComplete` carries `progress = downloadedCount / total * 100`;
on failure (`outcome e = some msg`, the message of the executor or
stream error) `downloadError` carries the id and the message and the
counter is unchanged. -/
def taskEvents (total : Nat) (outcome : Envelope → Option String) (e : Envelope)
    (count : Nat) : List Event × Nat :=
  match outcome e with
  | none => ([.downloadComplete e.envelopeId (((count + 1 : Nat) : ℚ) / (total : ℚ) * 100)],
      count + 1)
  | some msg => ([.downloadError e.envelopeId msg], count)

/-- The terminal events of one chunk's tasks in the order `order` in
which the concurrently running tasks settle, threading the shared
counter. -/
def runCompletions (total : Nat) (outcome : Envelope → Option String) :
    List Envelope → Nat → List Event × Nat
  | [], count => ([], count)
  | e :: rest, count =>
    let p := taskEvents total outcome e count
    let q := runCompletions total outcome rest p.2
    (p.1 ++ q.1, q.2)

/-- The events of one chunk: every task emits `downloadStarted`
synchronously (before its first await) in chunk order, then the terminal
events follow in settle order `order`. -/
def chunkTrace (total : Nat) (outcome : Envelope → Option String)
    (chunk order : List Envelope) (count : Nat) : List Event × Nat :=
  let q := runCompletions total outcome order count
  (chunk.map (fun e => Event.downloadStarted e.envelopeId) ++ q.1, q.2)

/-- The chunk loop of `downloadDocuments`: each iteration first checks
the cancellation flag (`cancelBefore k` is its value at the top of
iteration k) and breaks if set; otherwise it awaits all of the chunk's
tasks (`Promise.all`), whose events form `chunkTrace`. -/
def downloadLoop (total : Nat) (outcome : Envelope → Option String)
    (cancelBefore : Nat → Bool) :
    List (List Envelope × List Envelope) → Nat → Nat → List Event × Nat
  | [], _, count => ([], count)
  | pr :: rest, k, count =>
    if cancelBefore k then ([], count)
    else
      let p := chunkTrace total outcome pr.1 pr.2 count
      let q := downloadLoop total outcome cancelBefore rest (k + 1) p.2
      (p.1 ++ q.1, q.2)

/-- Shallow embedding of `DocusignService.downloadDocuments`: the event
trace of one batch.  `envs` is the frozen Result Set, `m` the configured
`maxConcurrent`, `outcome e` the awaited result of envelope `e`'s
request-and-stream (`none` = success, `some msg` = failure message),
`perms` the per-chunk settle orders, `entryCancelled` the flag value at
the entry guard, and `cancelBefore k` its value at the top of chunk
iteration k.  An empty Result Set or a cancelled entry returns before
emitting anything; otherwise the chunk loop runs and a final
`allDownloadsComplete` carries the accumulated `downloadedCount`. -/
def downloadDocuments (envs : List Envelope) (m : Nat)
    (outcome : Envelope → Option String) (perms : List (List Envelope))
    (entryCancelled : Bool) (cancelBefore : Nat → Bool) : List Event :=
  if envs.length = 0 ∨ entryCancelled = true then []
  else
    let p := downloadLoop envs.length outcome cancelBefore
      ((chunksOf m envs).zip perms) 0 0
    p.1 ++ [.allDownloadsComplete p.2]

/-- Whether an event is a terminal Download Outcome for the given id. -/
def isTerminalFor (id : String) : Event → Bool
  | .downloadComplete i _ => i == id
  | .downloadError i _ => i == id
  | _ => false

/-- Whether an event mentions the given envelope id at all. -/
def mentionsId (id : String) : Event → Bool
  | .downloadStarted i => i == id
  | .downloadComplete i _ => i == id
  | .downloadError i _ => i == id
  | _ => false

theorem chunksOfPos_flatten {α : Type} (m' : Nat) :
    ∀ (n : Nat) (l : List α), l.length ≤ n → (chunksOfPos m' l).flatten = l := by
  intro n
  induction n with
  | zero =>
    intro l hl
    have : l = [] := List.eq_nil_of_length_eq_zero (by omega)
    subst this
    simp [chunksOfPos]
  | succ n ih =>
    intro l hl
    match l with
    | [] => simp [chunksOfPos]
    | a :: rest =>
      rw [chunksOfPos]
      simp only [List.flatten_cons]
      rw [ih (rest.drop m') (by simp only [List.length_drop]; simp at hl; omega)]
      simp [List.take_succ_cons, List.take_append_drop]

theorem chunksOf_flatten {α : Type} (m : Nat) (l : List α) (hm : 1 ≤ m) :
    (chunksOf m l).flatten = l := by
  match m with
  | 0 => omega
  | m' + 1 => exact chunksOfPos_flatten m' l.length l (le_refl _)

theorem chunksOfPos_mem_length {α : Type} (m' : Nat) :
    ∀ (n : Nat) (l : List α), l.length ≤ n →
    ∀ c ∈ chunksOfPos m' l, c ≠ [] ∧ c.length ≤ m' + 1 := by
  intro n
  induction n with
  | zero =>
    intro l hl
    have : l = [] := List.eq_nil_of_length_eq_zero (by omega)
    subst this
    intro c hc
    simp [chunksOfPos] at hc
  | succ n ih =>
    intro l hl
    match l with
    | [] => intro c hc; simp [chunksOfPos] at hc
    | a :: rest =>
      rw [chunksOfPos]
      intro c hc
      rcases List.mem_cons.mp hc with h | h
      · subst h
        constructor
        · simp
        · simp
      · exact ih (rest.drop m') (by simp only [List.length_drop]; simp at hl; omega) c h

theorem chunksOfPos_dropLast_length {α : Type} (m' : Nat) :
    ∀ (n : Nat) (l : List α), l.length ≤ n →
    ∀ c ∈ (chunksOfPos m' l).dropLast, c.length = m' + 1 := by
  intro n
  induction n with
  | zero =>
    intro l hl
    have : l = [] := List.eq_nil_of_length_eq_zero (by omega)
    subst this
    intro c hc
    simp [chunksOfPos] at hc
  | succ n ih =>
    intro l hl
    match l with
    | [] => intro c hc; simp [chunksOfPos] at hc
    | a :: rest =>
      rw [chunksOfPos]
      intro c hc
      by_cases hrest : rest.drop m' = []
      · rw [hrest] at hc
        simp [chunksOfPos] at hc
      · have hne : chunksOfPos m' (rest.drop m') ≠ [] := by
          match hr : rest.drop m' with
          | [] => exact absurd hr hrest
          | b :: more => rw [chunksOfPos]; simp
        rw [List.dropLast_cons_of_ne_nil hne] at hc
        rcases List.mem_cons.mp hc with h | h
        · subst h
          have hlen : m' < rest.length := by
            by_contra hcon
            push_neg at hcon
            exact hrest (List.drop_eq_nil_of_le hcon)
          simp only [List.length_take, List.length_cons]
          omega
        · exact ih (rest.drop m') (by simp only [List.length_drop]; simp at hl; omega) c h

theorem chunksOf_five_two {α : Type} (l : List α) (hl : l.length = 5) :
    (chunksOf 2 l).map List.length = [2, 2, 1] := by
  rcases l with _ | ⟨a, _ | ⟨b, _ | ⟨c, _ | ⟨d, _ | ⟨e, _ | ⟨f, t⟩⟩⟩⟩⟩⟩ <;>
    simp_all [chunksOf, chunksOfPos]

theorem downloadLoop_append (total : Nat) (outcome : Envelope → Option String) :
    ∀ (ps₁ ps₂ : List (List Envelope × List Envelope)) (k count : Nat),
    downloadLoop total outcome (fun _ => false) (ps₁ ++ ps₂) k count =
      ((downloadLoop total outcome (fun _ => false) ps₁ k count).1 ++
        (downloadLoop total outcome (fun _ => false) ps₂ (k + ps₁.length)
          (downloadLoop total outcome (fun _ => false) ps₁ k count).2).1,
       (downloadLoop total outcome (fun _ => false) ps₂ (k + ps₁.length)
          (downloadLoop total outcome (fun _ => false) ps₁ k count).2).2) := by
  intro ps₁
  induction ps₁ with
  | nil => intro ps₂ k count; simp [downloadLoop]
  | cons pr rest ih =>
    intro ps₂ k count
    simp only [List.cons_append, downloadLoop, Bool.false_eq_true, if_false]
    simp only [List.append_eq]
    rw [ih]
    simp only [List.length_cons, List.append_assoc]
    have : k + 1 + rest.length = k + (rest.length + 1) := by omega
    rw [this]

theorem runCompletions_count (total : Nat) (outcome : Envelope → Option String) :
    ∀ (order : List Envelope) (count : Nat),
    (runCompletions total outcome order count).2 =
      count + order.countP (fun e => (outcome e).isNone) := by
  intro order
  induction order with
  | nil => intro count; simp [runCompletions]
  | cons e rest ih =>
    intro count
    simp only [runCompletions]
    rw [ih]
    cases h : outcome e <;> simp [taskEvents, h, List.countP_cons] <;> try omega

theorem downloadLoop_count (total : Nat) (outcome : Envelope → Option String) :
    ∀ (pairs : List (List Envelope × List Envelope)) (k count : Nat),
    (downloadLoop total outcome (fun _ => false) pairs k count).2 =
      count + ((pairs.map Prod.snd).flatten.countP (fun e => (outcome e).isNone)) := by
  intro pairs
  induction pairs with
  | nil => intro k count; simp [downloadLoop]
  | cons pr rest ih =>
    intro k count
    simp only [downloadLoop, Bool.false_eq_true, if_false]
    rw [ih]
    simp only [chunkTrace, runCompletions_count, List.map_cons, List.flatten_cons,
      List.countP_append]
    omega

theorem runCompletions_error_mem (total : Nat) (outcome : Envelope → Option String) :
    ∀ (order : List Envelope) (count : Nat) (e : Envelope) (msg : String),
    e ∈ order → outcome e = some msg →
    Event.downloadError e.envelopeId msg ∈ (runCompletions total outcome order count).1 := by
  intro order
  induction order with
  | nil => intro count e msg he _; simp at he
  | cons x rest ih =>
    intro count e msg he hout
    simp only [runCompletions, List.mem_append]
    rcases List.mem_cons.mp he with h | h
    · subst h
      left
      simp [taskEvents, hout]
    · right
      exact ih _ e msg h hout

theorem runCompletions_complete_mem (total : Nat) (outcome : Envelope → Option String) :
    ∀ (order : List Envelope) (count : Nat) (e : Envelope),
    e ∈ order → outcome e = none →
    ∃ pr, Event.downloadComplete e.envelopeId pr ∈ (runCompletions total outcome order count).1 := by
  intro order
  induction order with
  | nil => intro count e he _; simp at he
  | cons x rest ih =>
    intro count e he hout
    simp only [runCompletions, List.mem_append]
    rcases List.mem_cons.mp he with h | h
    · subst h
      exact ⟨((count + 1 : Nat) : ℚ) / (total : ℚ) * 100,
        Or.inl (by simp [taskEvents, hout])⟩
    · obtain ⟨pr, hpr⟩ := ih _ e h hout
      exact ⟨pr, Or.inr hpr⟩

theorem runCompletions_terminal_mem (total : Nat) (outcome : Envelope → Option String)
    (order : List Envelope) (count : Nat) (e : Envelope) (he : e ∈ order) :
    ∃ ev ∈ (runCompletions total outcome order count).1,
      isTerminalFor e.envelopeId ev = true := by
  cases hout : outcome e with
  | none =>
    obtain ⟨pr, hpr⟩ := runCompletions_complete_mem total outcome order count e he hout
    exact ⟨_, hpr, by simp [isTerminalFor]⟩
  | some msg =>
    exact ⟨_, runCompletions_error_mem total outcome order count e msg he hout,
      by simp [isTerminalFor]⟩

theorem runCompletions_mention (total : Nat) (outcome : Envelope → Option String) :
    ∀ (order : List Envelope) (count : Nat) (id : String) (ev : Event),
    ev ∈ (runCompletions total outcome order count).1 → mentionsId id ev = true →
    ∃ e ∈ order, e.envelopeId = id := by
  intro order
  induction order with
  | nil => intro count id ev hev _; simp [runCompletions] at hev
  | cons x rest ih =>
    intro count id ev hev hm
    simp only [runCompletions, List.mem_append] at hev
    rcases hev with h | h
    · cases hout : outcome x with
      | none =>
        simp [taskEvents, hout] at h
        subst h
        simp only [mentionsId] at hm
        exact ⟨x, List.mem_cons_self x rest, by simpa using hm⟩
      | some msg =>
        simp [taskEvents, hout] at h
        subst h
        simp only [mentionsId] at hm
        exact ⟨x, List.mem_cons_self x rest, by simpa using hm⟩
    · obtain ⟨e, hmem, heq⟩ := ih _ id ev h hm
      exact ⟨e, List.mem_cons_of_mem x hmem, heq⟩

theorem downloadLoop_error_mem (total : Nat) (outcome : Envelope → Option String) :
    ∀ (pairs : List (List Envelope × List Envelope)) (k count : Nat)
      (pr0 : List Envelope × List Envelope) (e : Envelope) (msg : String),
    pr0 ∈ pairs → e ∈ pr0.2 → outcome e = some msg →
    Event.downloadError e.envelopeId msg ∈
      (downloadLoop total outcome (fun _ => false) pairs k count).1 := by
  intro pairs
  induction pairs with
  | nil => intro k count pr0 e msg hpr _ _; simp at hpr
  | cons pr rest ih =>
    intro k count pr0 e msg hpr he hout
    simp only [downloadLoop, Bool.false_eq_true, if_false, List.mem_append]
    rcases List.mem_cons.mp hpr with h | h
    · subst h
      left
      simp only [chunkTrace, List.mem_append]
      right
      exact runCompletions_error_mem total outcome pr0.2 count e msg he hout
    · right
      exact ih _ _ pr0 e msg h he hout

theorem downloadLoop_complete_mem (total : Nat) (outcome : Envelope → Option String) :
    ∀ (pairs : List (List Envelope × List Envelope)) (k count : Nat)
      (pr0 : List Envelope × List Envelope) (e : Envelope),
    pr0 ∈ pairs → e ∈ pr0.2 → outcome e = none →
    ∃ pr, Event.downloadComplete e.envelopeId pr ∈
      (downloadLoop total outcome (fun _ => false) pairs k count).1 := by
  intro pairs
  induction pairs with
  | nil => intro k count pr0 e hpr _ _; simp at hpr
  | cons pr rest ih =>
    intro k count pr0 e hpr he hout
    simp only [downloadLoop, Bool.false_eq_true, if_false, List.mem_append]
    rcases List.mem_cons.mp hpr with h | h
    · subst h
      obtain ⟨p, hp⟩ := runCompletions_complete_mem total outcome pr0.2 count e he hout
      exact ⟨p, Or.inl (by simp only [chunkTrace, List.mem_append]; right; exact hp)⟩
    · obtain ⟨p, hp⟩ := ih (k + 1) (chunkTrace total outcome pr.1 pr.2 count).2 pr0 e h he hout
      exact ⟨p, Or.inr hp⟩

theorem downloadLoop_terminal_mem (total : Nat) (outcome : Envelope → Option String)
    (pairs : List (List Envelope × List Envelope)) (k count : Nat)
    (pr0 : List Envelope × List Envelope) (e : Envelope)
    (hpr : pr0 ∈ pairs) (he : e ∈ pr0.2) :
    ∃ ev ∈ (downloadLoop total outcome (fun _ => false) pairs k count).1,
      isTerminalFor e.envelopeId ev = true := by
  cases hout : outcome e with
  | none =>
    obtain ⟨p, hp⟩ := downloadLoop_complete_mem total outcome pairs k count pr0 e hpr he hout
    exact ⟨_, hp, by simp [isTerminalFor]⟩
  | some msg =>
    exact ⟨_, downloadLoop_error_mem total outcome pairs k count pr0 e msg hpr he hout,
      by simp [isTerminalFor]⟩

theorem downloadLoop_mention (total : Nat) (outcome : Envelope → Option String)
    (cb : Nat → Bool) :
    ∀ (pairs : List (List Envelope × List Envelope)) (k count : Nat) (id : String) (ev : Event),
    ev ∈ (downloadLoop total outcome cb pairs k count).1 → mentionsId id ev = true →
    ∃ pr ∈ pairs, (∃ e ∈ pr.1, e.envelopeId = id) ∨ (∃ e ∈ pr.2, e.envelopeId = id) := by
  intro pairs
  induction pairs with
  | nil => intro k count id ev hev _; simp [downloadLoop] at hev
  | cons pr rest ih =>
    intro k count id ev hev hm
    rw [downloadLoop] at hev
    by_cases hc : cb k = true
    · rw [if_pos hc] at hev; simp at hev
    · rw [if_neg hc] at hev
      simp only [List.mem_append] at hev
      rcases hev with h | h
      · simp only [chunkTrace, List.mem_append] at h
        rcases h with h | h
        · obtain ⟨e, hmem, heq⟩ := List.mem_map.mp h
          subst heq
          simp only [mentionsId] at hm
          exact ⟨pr, List.mem_cons_self pr rest, Or.inl ⟨e, hmem, by simpa using hm⟩⟩
        · obtain ⟨e, hmem, heq⟩ := runCompletions_mention total outcome pr.2 count id ev h hm
          exact ⟨pr, List.mem_cons_self pr rest, Or.inr ⟨e, hmem, heq⟩⟩
      · obtain ⟨pr', hmem, hrest⟩ := ih _ _ id ev h hm
        exact ⟨pr', List.mem_cons_of_mem pr hmem, hrest⟩

theorem downloadLoop_cancelAt (total : Nat) (outcome : Envelope → Option String) (j : Nat) :
    ∀ (pairs : List (List Envelope × List Envelope)) (k count : Nat), k ≤ j →
    downloadLoop total outcome (fun c => decide (j ≤ c)) pairs k count =
      downloadLoop total outcome (fun _ => false) (pairs.take (j - k)) k count := by
  intro pairs
  induction pairs with
  | nil => intro k count _; simp [downloadLoop]
  | cons pr rest ih =>
    intro k count hk
    by_cases hkj : j ≤ k
    · have hj : j = k := by omega
      subst hj
      rw [downloadLoop]
      simp [downloadLoop]
    · push_neg at hkj
      have h1 : (decide (j ≤ k)) = false := by simp; omega
      have h2 : j - k = (j - (k + 1)) + 1 := by omega
      rw [downloadLoop, h1, h2, List.take_succ_cons, downloadLoop]
      simp only [Bool.false_eq_true, if_false]
      rw [ih (k + 1) (chunkTrace total outcome pr.1 pr.2 count).2 (by omega)]

theorem mem_pre_of_append_eq {α : Type} (y : α) :
    ∀ (p q pre suf : List α), y ∉ p → p ++ q = pre ++ y :: suf →
    ∀ x ∈ p, x ∈ pre := by
  intro p
  induction p with
  | nil => intro q pre suf _ _ x hx; simp at hx
  | cons a p' ih =>
    intro q pre suf hy heq x hx
    match pre with
    | [] =>
      simp only [List.nil_append, List.cons_append] at heq
      have ha : a = y := by
        have := congrArg (fun l => l.head?) heq
        simpa using this
      exact absurd (ha ▸ List.mem_cons_self a p') hy
    | b :: pre' =>
      simp only [List.cons_append] at heq
      injection heq with h1 h2
      rcases List.mem_cons.mp hx with hxa | hxp
      · subst hxa
        rw [h1]
        exact List.mem_cons_self b pre'
      · exact List.mem_cons_of_mem b
          (ih q pre' suf (fun hc => hy (List.mem_cons_of_mem a hc)) h2 x hxp)

theorem chunksOf_nil {α : Type} (m : Nat) : chunksOf m ([] : List α) = [] := by
  match m with
  | 0 => rfl
  | m' + 1 => simp [chunksOf, chunksOfPos]

/-- C5: for a non-empty Result Set and a positive `maxConcurrent` bound
`m`, the downloader partitions the list into consecutive chunks whose
concatenation is the original list, every chunk except possibly the last
has exactly `m` elements and none is larger or empty (5 resources with
m = 2 give sizes [2,2,1]); and in the emitted trace — for any per-chunk
settle orders — every `downloadStarted` of a member of chunk k+1 occurs
strictly after a terminal event of every member of chunk k, because the
chunk loop awaits all of a chunk's downloads before dispatching the
next chunk. -/
theorem c5_chunked_download (envs : List Envelope) (m : Nat)
    (outcome : Envelope → Option String) (perms : List (List Envelope))
    (hm : 1 ≤ m)
    (hlen : perms.length = (chunksOf m envs).length)
    (hperm : ∀ pr ∈ (chunksOf m envs).zip perms, pr.2.Perm pr.1)
    (hid : (envs.map Envelope.envelopeId).Nodup) :
    ((chunksOf m envs).flatten = envs)
    ∧ (∀ c ∈ (chunksOf m envs).dropLast, c.length = m)
    ∧ (∀ c ∈ chunksOf m envs, c ≠ [] ∧ c.length ≤ m)
    ∧ (∀ l : List Envelope, l.length = 5 → (chunksOf 2 l).map List.length = [2, 2, 1])
    ∧ (∀ (k : Nat) (a b : Envelope), a ∈ (chunksOf m envs).getD k [] →
        b ∈ (chunksOf m envs).getD (k + 1) [] →
        ∀ pre suf,
          downloadDocuments envs m outcome perms false (fun _ => false)
            = pre ++ Event.downloadStarted b.envelopeId :: suf →
          ∃ ev ∈ pre, isTerminalFor a.envelopeId ev = true) := by
  obtain ⟨m', rfl⟩ : ∃ m', m = m' + 1 := ⟨m - 1, by omega⟩
  refine ⟨chunksOf_flatten _ envs hm, ?_, ?_, ?_, ?_⟩
  · exact chunksOfPos_dropLast_length m' envs.length envs (le_refl _)
  · exact chunksOfPos_mem_length m' envs.length envs (le_refl _)
  · exact fun l hl => chunksOf_five_two l hl
  · intro k a b ha hb pre suf htr
    set chunks := chunksOf (m' + 1) envs with hchunks
    set pairs := chunks.zip perms with hpairs
    -- bounds from the getD memberships
    have hlt : k + 1 < chunks.length := by
      by_contra hcon
      push_neg at hcon
      rw [List.getD_eq_default _ _ hcon] at hb
      simp at hb
    have hltk : k < chunks.length := by omega
    have hplen : pairs.length = chunks.length := by
      rw [hpairs, List.length_zip, hlen]
      omega
    have hka : a ∈ chunks[k] := by
      rw [List.getD_eq_getElem _ _ hltk] at ha
      exact ha
    have hkb : b ∈ chunks[k + 1] := by
      rw [List.getD_eq_getElem _ _ hlt] at hb
      exact hb
    -- envs is non-empty
    have henvs : envs.length ≠ 0 := by
      intro h0
      have : envs = [] := List.eq_nil_of_length_eq_zero h0
      rw [this, chunksOf_nil] at hchunks
      rw [hchunks] at hlt
      simp at hlt
    -- unfold the trace into the loop trace plus the final event
    rw [downloadDocuments, if_neg (by simp [henvs])] at htr
    -- split the loop trace at chunk boundary k+1
    rw [← List.take_append_drop (k + 1) ((chunksOf (m' + 1) envs).zip perms)] at htr
    rw [downloadLoop_append] at htr
    simp only [List.append_assoc] at htr
    set P := (downloadLoop envs.length outcome (fun _ => false)
      (((chunksOf (m' + 1) envs).zip perms).take (k + 1)) 0 0).1 with hP
    -- the k-th pair is among the first k+1 pairs and its settle order contains a
    have hkpairs : k < (pairs.take (k + 1)).length := by
      rw [List.length_take]
      omega
    have hgetTake : (pairs.take (k + 1))[k] = pairs[k] := by
      apply List.getElem_take
    have hmemTake : pairs[k] ∈ pairs.take (k + 1) := by
      rw [← hgetTake]
      exact List.getElem_mem hkpairs
    have hzipk : pairs[k] = (chunks[k], perms[k]) := by
      exact List.getElem_zip ..
    have haperm : a ∈ (pairs[k]).2 := by
      have hmem : pairs[k] ∈ pairs := List.getElem_mem (by omega)
      have hp := hperm pairs[k] hmem
      rw [hp.mem_iff]
      rw [hzipk]
      exact hka
    -- a terminal event for a occurs in P
    obtain ⟨ev, hev, hterm⟩ := downloadLoop_terminal_mem envs.length outcome
      (pairs.take (k + 1)) 0 0 pairs[k] a hmemTake haperm
    -- no started event for b occurs in P
    have hbnot : Event.downloadStarted b.envelopeId ∉ P := by
      intro hmem
      obtain ⟨pr', hpr', hcase⟩ := downloadLoop_mention envs.length outcome (fun _ => false)
        (pairs.take (k + 1)) 0 0 b.envelopeId (Event.downloadStarted b.envelopeId) hmem
        (by simp [mentionsId])
      -- pr' is the pair of some chunk index j ≤ k
      obtain ⟨j, hj, hget⟩ := List.mem_iff_getElem.mp hpr'
      have hjlt : j < k + 1 := by
        have := hj
        rw [List.length_take] at this
        omega
      have hjp : j < pairs.length := by
        have := hj
        rw [List.length_take] at this
        omega
      have hget' : pairs[j] = pr' := by
        rw [← hget]
        symm
        apply List.getElem_take
      -- extract a member of chunk j with b's id
      have hzipj : pairs[j] = (chunks[j], perms[j]) := by
        exact List.getElem_zip ..
    -- whichever side of the disjunction, get e ∈ chunks[j] with e.envelopeId = b.envelopeId
      have hej : ∃ e ∈ chunks[j], e.envelopeId = b.envelopeId := by
        rcases hcase with ⟨e, hemem, heid⟩ | ⟨e, hemem, heid⟩
        · refine ⟨e, ?_, heid⟩
          rw [← hget', hzipj] at hemem
          exact hemem
        · refine ⟨e, ?_, heid⟩
          have hmempairs : pr' ∈ pairs := List.mem_of_mem_take hpr'
          have hp := hperm pr' hmempairs
          have hemem' : e ∈ pr'.1 := hp.mem_iff.mp hemem
          rw [← hget', hzipj] at hemem'
          exact hemem'
      obtain ⟨e, hej, heid⟩ := hej
      -- disjointness of ids across the chunk boundary k+1
      have hsplit : envs = (chunks.take (k + 1)).flatten ++ (chunks.drop (k + 1)).flatten := by
        conv_lhs => rw [← chunksOf_flatten (m' + 1) envs hm]
        rw [← List.flatten_append, List.take_append_drop]
      have hnodup := hid
      rw [hsplit, List.map_append, List.nodup_append] at hnodup
      have hdisj := hnodup.2.2
      have hjc : j < chunks.length := by omega
      have hein : e.envelopeId ∈ ((chunks.take (k + 1)).flatten.map Envelope.envelopeId) := by
        apply List.mem_map_of_mem
        apply List.mem_flatten.mpr
        have hjt : j < (chunks.take (k + 1)).length := by
          rw [List.length_take]
          omega
        have hgt : (chunks.take (k + 1))[j] = chunks[j] := List.getElem_take ..
        refine ⟨(chunks.take (k + 1))[j], List.getElem_mem hjt, ?_⟩
        rw [hgt]
        exact hej
      have hbin : b.envelopeId ∈ ((chunks.drop (k + 1)).flatten.map Envelope.envelopeId) := by
        apply List.mem_map_of_mem
        apply List.mem_flatten.mpr
        have h0 : 0 < (chunks.drop (k + 1)).length := by
          rw [List.length_drop]
          omega
        have hgd : (chunks.drop (k + 1))[0] = chunks[k + 1] := by
          simp [List.getElem_drop]
        refine ⟨(chunks.drop (k + 1))[0], List.getElem_mem h0, ?_⟩
        rw [hgd]
        exact hkb
      rw [heid] at hein
      exact hdisj hein hbin
    -- conclude via the append decomposition
    have hsub := mem_pre_of_append_eq (Event.downloadStarted b.envelopeId)
      P _ pre suf hbnot htr
    exact ⟨ev, hsub ev hev, hterm⟩

/-- Five distinct sample envelopes for the download witnesses. -/
def fiveEnvs : List Envelope :=
  [sampleEnvelope "1", sampleEnvelope "2", sampleEnvelope "3",
   sampleEnvelope "4", sampleEnvelope "5"]

/-- C5 witness: the five sample envelopes with bound 2 partition into
chunks of sizes [2,2,1] whose concatenation is the original list. -/
theorem c5_chunked_download_witness :
    (chunksOf 2 fiveEnvs).flatten = fiveEnvs ∧
    (chunksOf 2 fiveEnvs).map List.length = [2, 2, 1] := by
  have hch : chunksOf 2 fiveEnvs =
      [[sampleEnvelope "1", sampleEnvelope "2"],
       [sampleEnvelope "3", sampleEnvelope "4"],
       [sampleEnvelope "5"]] := by
    simp [fiveEnvs, chunksOf, chunksOfPos]
  have h := c5_chunked_download fiveEnvs 2 (fun _ => none)
    [[sampleEnvelope "1", sampleEnvelope "2"],
     [sampleEnvelope "3", sampleEnvelope "4"],
     [sampleEnvelope "5"]]
    (by omega)
    (by rw [hch])
    (by
      rw [hch]
      intro pr hpr
      simp only [List.zip_cons_cons, List.zip_nil_right, List.mem_cons] at hpr
      rcases hpr with rfl | rfl | rfl | hpr
      · exact List.Perm.refl _
      · exact List.Perm.refl _
      · exact List.Perm.refl _
      · simp at hpr)
    (by decide)
  exact ⟨h.1, h.2.2.2.1 fiveEnvs (by decide)⟩

theorem countP_flatten_snd_eq_fst (p : Envelope → Bool) :
    ∀ (pairs : List (List Envelope × List Envelope)),
    (∀ pr ∈ pairs, pr.2.Perm pr.1) →
    (pairs.map Prod.snd).flatten.countP p = (pairs.map Prod.fst).flatten.countP p := by
  intro pairs
  induction pairs with
  | nil => intro _; simp
  | cons pr rest ih =>
    intro h
    simp only [List.map_cons, List.flatten_cons, List.countP_append]
    rw [ih (fun q hq => h q (List.mem_cons_of_mem pr hq))]
    rw [(h pr (List.mem_cons_self pr rest)).countP_eq]

/-- C6: for a non-empty batch with positive bound and any per-chunk
settle orders, (a) the final event is `allDownloadsComplete` carrying
exactly the number of successful downloads (failures excluded); (b)
every envelope of the batch — whatever other envelopes fail — receives
its terminal event: `downloadError` with its id and error message on
failure, `downloadComplete` with its id on success, so a single failure
never aborts its own chunk or later ones; (c) on early cancellation
before chunk j the final event is still `allDownloadsComplete`, carrying
the successes of the chunks that ran. -/
theorem c6_failure_isolation (envs : List Envelope) (m : Nat)
    (outcome : Envelope → Option String) (perms : List (List Envelope))
    (hm : 1 ≤ m) (hne : envs ≠ [])
    (hlen : perms.length = (chunksOf m envs).length)
    (hperm : ∀ pr ∈ (chunksOf m envs).zip perms, pr.2.Perm pr.1) :
    ((downloadDocuments envs m outcome perms false (fun _ => false)).getLast?
        = some (.allDownloadsComplete (envs.countP (fun e => (outcome e).isNone))))
    ∧ (∀ e ∈ envs,
        (∀ msg, outcome e = some msg →
          Event.downloadError e.envelopeId msg
            ∈ downloadDocuments envs m outcome perms false (fun _ => false)) ∧
        (outcome e = none →
          ∃ pr, Event.downloadComplete e.envelopeId pr
            ∈ downloadDocuments envs m outcome perms false (fun _ => false)))
    ∧ (∀ j : Nat,
        (downloadDocuments envs m outcome perms false (fun c => decide (j ≤ c))).getLast?
          = some (.allDownloadsComplete
              (((chunksOf m envs).take j).flatten.countP (fun e => (outcome e).isNone)))) := by
  have henvs : envs.length ≠ 0 := by
    intro h0
    exact hne (List.eq_nil_of_length_eq_zero h0)
  set chunks := chunksOf m envs with hchunks
  set pairs := chunks.zip perms with hpairs
  have hplen : pairs.length = chunks.length := by
    rw [hpairs, List.length_zip, hlen]
    omega
  have hfst : pairs.map Prod.fst = chunks := by
    rw [hpairs]
    exact List.map_fst_zip chunks perms (by omega)
  have hmem_pair : ∀ e ∈ envs, ∃ pr0 ∈ pairs, e ∈ pr0.2 := by
    intro e he
    have he' : e ∈ chunks.flatten := by
      rw [hchunks, chunksOf_flatten m envs hm]
      exact he
    obtain ⟨c, hc, hec⟩ := List.mem_flatten.mp he'
    obtain ⟨i, hi, hgi⟩ := List.mem_iff_getElem.mp hc
    have hip : i < pairs.length := by omega
    refine ⟨pairs[i], List.getElem_mem hip, ?_⟩
    have hzi : pairs[i] = (chunks[i], perms[i]) := List.getElem_zip ..
    have hp := hperm pairs[i] (List.getElem_mem hip)
    rw [hp.mem_iff, hzi]
    rw [hgi]
    exact hec
  refine ⟨?_, ?_, ?_⟩
  · rw [downloadDocuments, if_neg (by simp [henvs])]
    rw [List.getLast?_concat]
    congr 2
    rw [downloadLoop_count]
    rw [countP_flatten_snd_eq_fst _ pairs hperm, hfst, chunksOf_flatten m envs hm]
    simp
  · intro e he
    constructor
    · intro msg hmsg
      obtain ⟨pr0, hpr0, hepr⟩ := hmem_pair e he
      rw [downloadDocuments, if_neg (by simp [henvs])]
      apply List.mem_append_left
      exact downloadLoop_error_mem envs.length outcome pairs 0 0 pr0 e msg hpr0 hepr hmsg
    · intro hnone
      obtain ⟨pr0, hpr0, hepr⟩ := hmem_pair e he
      obtain ⟨p, hp⟩ := downloadLoop_complete_mem envs.length outcome pairs 0 0 pr0 e
        hpr0 hepr hnone
      rw [downloadDocuments, if_neg (by simp [henvs])]
      exact ⟨p, List.mem_append_left _ hp⟩
  · intro j
    rw [downloadDocuments, if_neg (by simp [henvs])]
    rw [downloadLoop_cancelAt envs.length outcome j pairs 0 0 (by omega)]
    rw [List.getLast?_concat]
    congr 2
    rw [downloadLoop_count]
    have htake : ∀ pr ∈ pairs.take (j - 0), pr.2.Perm pr.1 :=
      fun pr hpr => hperm pr (List.mem_of_mem_take hpr)
    rw [countP_flatten_snd_eq_fst _ (pairs.take (j - 0)) htake]
    have hmt : List.map Prod.fst (List.take (j - 0) pairs) = List.take j chunks := by
      simp [List.map_take, hfst]
    rw [hmt]
    simp

/-- The download outcome oracle that fails envelope "3" and succeeds on
the rest. -/
def failThird (e : Envelope) : Option String :=
  if e.envelopeId = "3" then some "boom" else none


/-- C6 witness: five envelopes, bound 2, envelope "3" failing: the batch
still ends with `allDownloadsComplete` carrying 4 (successes only) and
the trace contains the `downloadError` for "3". -/
theorem c6_failure_isolation_witness :
    fiveEnvs.countP (fun e => (failThird e).isNone) = 4 ∧
    (downloadDocuments fiveEnvs 2 failThird
        [[sampleEnvelope "1", sampleEnvelope "2"],
         [sampleEnvelope "3", sampleEnvelope "4"],
         [sampleEnvelope "5"]] false (fun _ => false)).getLast?
      = some (.allDownloadsComplete (fiveEnvs.countP (fun e => (failThird e).isNone))) ∧
    Event.downloadError (sampleEnvelope "3").envelopeId "boom"
      ∈ downloadDocuments fiveEnvs 2 failThird
          [[sampleEnvelope "1", sampleEnvelope "2"],
           [sampleEnvelope "3", sampleEnvelope "4"],
           [sampleEnvelope "5"]] false (fun _ => false) := by
  have hch : chunksOf 2 fiveEnvs =
      [[sampleEnvelope "1", sampleEnvelope "2"],
       [sampleEnvelope "3", sampleEnvelope "4"],
       [sampleEnvelope "5"]] := by
    simp [fiveEnvs, chunksOf, chunksOfPos]
  have h := c6_failure_isolation fiveEnvs 2 failThird
    [[sampleEnvelope "1", sampleEnvelope "2"],
     [sampleEnvelope "3", sampleEnvelope "4"],
     [sampleEnvelope "5"]]
    (by omega) (by simp [fiveEnvs])
    (by rw [hch])
    (by
      rw [hch]
      intro pr hpr
      simp only [List.zip_cons_cons, List.zip_nil_right, List.mem_cons] at hpr
      rcases hpr with rfl | rfl | rfl | hpr
      · exact List.Perm.refl _
      · exact List.Perm.refl _
      · exact List.Perm.refl _
      · simp at hpr)
  refine ⟨by decide, h.1, ?_⟩
  exact (h.2.1 (sampleEnvelope "3") (by simp [fiveEnvs])).1 "boom" (by decide)

/-- Discovery over full pages with the cancellation flag raised before
the k-th request: the loop stops at the flag check, having consumed
exactly k pages, and returns the partial accumulation without error. -/
theorem discoverRun_cancelAt :
    ∀ (k : Nat) (pages : List (List Envelope)) (st : DiscoveryState) (i : Nat)
      (c : Nat → Bool),
    (∀ n, c n = decide (i + k ≤ n)) → k ≤ pages.length →
    (∀ p ∈ pages.take k, p.length = pageCount) →
    st.startPosition = st.envelopes.length →
    discoverRun c (pages.map (fun p => Except.ok (some p))) st i =
      (.ok { envelopes := st.envelopes ++ (pages.take k).flatten,
             startPosition := (st.envelopes ++ (pages.take k).flatten).length }, k) := by
  intro k
  induction k with
  | zero =>
    intro pages st i c hc _ _ hst
    have hci : c i = true := by
      rw [hc i]
      simp
    rw [discoverRun.eq_def, hci]
    cases st with
    | mk envelopes startPosition =>
      simp only [List.take_zero, List.flatten_nil, List.append_nil]
      simp at hst
      simp [hst]
  | succ k ih =>
    intro pages st i c hc hk hfull hst
    match pages with
    | [] => simp at hk
    | p :: rest =>
      have hci : c i = false := by
        rw [hc i]
        simp
      have hp : p.length = pageCount := hfull p (by simp [List.take_succ_cons])
      have hb : (p.length == pageCount) = true := by simp [hp]
      simp only [List.map_cons]
      rw [discoverRun, hci]
      simp only [Bool.false_eq_true, if_false, discoverStep, hb, if_true]
      have hrec := ih rest
        (DiscoveryState.mk (st.envelopes ++ p) (st.envelopes ++ p).length) (i + 1) c
        (by intro n; rw [hc n]; congr 1; simp; omega)
        (by simpa using hk)
        (by intro q hq; exact hfull q (by simp [List.take_succ_cons, hq]))
        rfl
      rw [hrec]
      simp [List.take_succ_cons, List.append_assoc]

/-- C8: cancellation takes effect at the two loop checkpoints.
Discovery: with the flag raised before the k-th listing request (and
the earlier pages full), the page loop stops, having issued exactly k
requests, and returns the partial Result Set accumulated so far without
error.  Download: with the flag raised before chunk j, every member of
an earlier chunk still receives a terminal Download Outcome, while no
event at all — no `downloadStarted` and no outcome — mentions a member
of chunk j or of any later chunk. -/
theorem c8_cancellation (pages : List (List Envelope)) (k : Nat)
    (envs : List Envelope) (m j : Nat) (outcome : Envelope → Option String)
    (perms : List (List Envelope))
    (hk : k ≤ pages.length) (hfullk : ∀ p ∈ pages.take k, p.length = pageCount)
    (hm : 1 ≤ m) (hne : envs ≠ [])
    (hlen : perms.length = (chunksOf m envs).length)
    (hperm : ∀ pr ∈ (chunksOf m envs).zip perms, pr.2.Perm pr.1)
    (hid : (envs.map Envelope.envelopeId).Nodup) :
    (discoverRun (fun i => decide (k ≤ i)) (pages.map (fun p => Except.ok (some p)))
        initialDiscoveryState 0 =
      (.ok { envelopes := (pages.take k).flatten,
             startPosition := (pages.take k).flatten.length }, k))
    ∧ (∀ e ∈ ((chunksOf m envs).take j).flatten,
        ∃ ev ∈ downloadDocuments envs m outcome perms false (fun c => decide (j ≤ c)),
          isTerminalFor e.envelopeId ev = true)
    ∧ (∀ e ∈ ((chunksOf m envs).drop j).flatten,
        ∀ ev ∈ downloadDocuments envs m outcome perms false (fun c => decide (j ≤ c)),
          mentionsId e.envelopeId ev = false) := by
  have henvs : envs.length ≠ 0 := by
    intro h0
    exact hne (List.eq_nil_of_length_eq_zero h0)
  set chunks := chunksOf m envs with hchunks
  set pairs := chunks.zip perms with hpairs
  have hplen : pairs.length = chunks.length := by
    rw [hpairs, List.length_zip, hlen]
    omega
  refine ⟨?_, ?_, ?_⟩
  · have h := discoverRun_cancelAt k pages initialDiscoveryState 0 (fun i => decide (k ≤ i))
      (by intro n; simp) hk hfullk rfl
    simpa [initialDiscoveryState] using h
  · intro e he
    obtain ⟨c, hc, hec⟩ := List.mem_flatten.mp he
    obtain ⟨i, hi, hgi⟩ := List.mem_iff_getElem.mp hc
    have hit : i < (chunks.take j).length := hi
    have hij : i < j := by
      have := hit
      rw [List.length_take] at this
      omega
    have hic : i < chunks.length := by
      have := hit
      rw [List.length_take] at this
      omega
    have hip : i < pairs.length := by omega
    have hgi' : chunks[i] = c := by
      rw [← hgi]
      symm
      apply List.getElem_take
    have hzi : pairs[i] = (chunks[i], perms[i]) := List.getElem_zip ..
    have hepr : e ∈ (pairs[i]).2 := by
      have hp := hperm pairs[i] (List.getElem_mem hip)
      rw [hp.mem_iff, hzi, hgi']
      exact hec
    have hipt : i < (pairs.take (j - 0)).length := by
      rw [List.length_take]
      omega
    have hmemT : pairs[i] ∈ pairs.take (j - 0) := by
      have hgt : (pairs.take (j - 0))[i] = pairs[i] := List.getElem_take ..
      rw [← hgt]
      exact List.getElem_mem hipt
    obtain ⟨ev, hev, hterm⟩ := downloadLoop_terminal_mem envs.length outcome
      (pairs.take (j - 0)) 0 0 pairs[i] e hmemT hepr
    refine ⟨ev, ?_, hterm⟩
    rw [downloadDocuments, if_neg (by simp [henvs])]
    apply List.mem_append_left
    rw [downloadLoop_cancelAt envs.length outcome j pairs 0 0 (by omega)]
    exact hev
  · intro e he ev hev
    by_contra hm'
    rw [Bool.not_eq_false] at hm'
    rw [downloadDocuments, if_neg (by simp [henvs])] at hev
    rw [downloadLoop_cancelAt envs.length outcome j pairs 0 0 (by omega)] at hev
    rcases List.mem_append.mp hev with hev | hev
    · -- the event lies in the trace of the first j chunks: contradiction with Nodup ids
      obtain ⟨pr', hpr', hcase⟩ := downloadLoop_mention envs.length outcome (fun _ => false)
        (pairs.take (j - 0)) 0 0 e.envelopeId ev hev hm'
      obtain ⟨i, hi, hget⟩ := List.mem_iff_getElem.mp hpr'
      have hij : i < j := by
        have := hi
        rw [List.length_take] at this
        omega
      have hip : i < pairs.length := by
        have := hi
        rw [List.length_take] at this
        omega
      have hic : i < chunks.length := by omega
      have hget' : pairs[i] = pr' := by
        rw [← hget]
        symm
        apply List.getElem_take
      have hzi : pairs[i] = (chunks[i], perms[i]) := List.getElem_zip ..
      have hx : ∃ x ∈ chunks[i], x.envelopeId = e.envelopeId := by
        rcases hcase with ⟨x, hxmem, hxid⟩ | ⟨x, hxmem, hxid⟩
        · refine ⟨x, ?_, hxid⟩
          rw [← hget', hzi] at hxmem
          exact hxmem
        · refine ⟨x, ?_, hxid⟩
          have hmempairs : pr' ∈ pairs := List.mem_of_mem_take hpr'
          have hp := hperm pr' hmempairs
          have hxmem' : x ∈ pr'.1 := hp.mem_iff.mp hxmem
          rw [← hget', hzi] at hxmem'
          exact hxmem'
      obtain ⟨x, hxc, hxid⟩ := hx
      have hsplit : envs = (chunks.take j).flatten ++ (chunks.drop j).flatten := by
        conv_lhs => rw [← chunksOf_flatten m envs hm]
        rw [← List.flatten_append, List.take_append_drop]
      have hnodup := hid
      rw [hsplit, List.map_append, List.nodup_append] at hnodup
      have hdisj := hnodup.2.2
      have hxin : x.envelopeId ∈ ((chunks.take j).flatten.map Envelope.envelopeId) := by
        apply List.mem_map_of_mem
        apply List.mem_flatten.mpr
        have hit : i < (chunks.take j).length := by
          rw [List.length_take]
          omega
        have hgt : (chunks.take j)[i] = chunks[i] := List.getElem_take ..
        refine ⟨(chunks.take j)[i], List.getElem_mem hit, ?_⟩
        rw [hgt]
        exact hxc
      have hein : e.envelopeId ∈ ((chunks.drop j).flatten.map Envelope.envelopeId) :=
        List.mem_map_of_mem _ he
      rw [hxid] at hxin
      exact hdisj hxin hein
    · -- the event is the final allDownloadsComplete, which mentions no id
      simp only [List.mem_singleton] at hev
      subst hev
      simp [mentionsId] at hm'

/-- C8 witness: cancelling before the second listing request returns
exactly the first (full) page without error after one request, and with
the download flag raised before chunk 1 of the five-envelope batch,
chunk 0's member "1" still receives a terminal outcome. -/
theorem c8_cancellation_witness :
    (discoverRun (fun i => decide (1 ≤ i))
        ([List.replicate 100 (sampleEnvelope "p1"), [sampleEnvelope "p2"]].map
          (fun p => Except.ok (some p)))
        initialDiscoveryState 0 =
      (.ok { envelopes := ([List.replicate 100 (sampleEnvelope "p1"),
                            [sampleEnvelope "p2"]].take 1).flatten,
             startPosition := ([List.replicate 100 (sampleEnvelope "p1"),
                                [sampleEnvelope "p2"]].take 1).flatten.length }, 1))
    ∧ (∃ ev ∈ downloadDocuments fiveEnvs 2 (fun _ => none)
          [[sampleEnvelope "1", sampleEnvelope "2"],
           [sampleEnvelope "3", sampleEnvelope "4"],
           [sampleEnvelope "5"]] false (fun c => decide (1 ≤ c)),
        isTerminalFor (sampleEnvelope "1").envelopeId ev = true) := by
  have hch : chunksOf 2 fiveEnvs =
      [[sampleEnvelope "1", sampleEnvelope "2"],
       [sampleEnvelope "3", sampleEnvelope "4"],
       [sampleEnvelope "5"]] := by
    simp [fiveEnvs, chunksOf, chunksOfPos]
  have h := c8_cancellation
    [List.replicate 100 (sampleEnvelope "p1"), [sampleEnvelope "p2"]] 1
    fiveEnvs 2 1 (fun _ => none)
    [[sampleEnvelope "1", sampleEnvelope "2"],
     [sampleEnvelope "3", sampleEnvelope "4"],
     [sampleEnvelope "5"]]
    (by simp)
    (by
      intro p hp
      simp only [List.take_succ_cons, List.take_zero, List.mem_singleton] at hp
      subst hp
      simp [pageCount])
    (by omega) (by simp [fiveEnvs])
    (by rw [hch])
    (by
      rw [hch]
      intro pr hpr
      simp only [List.zip_cons_cons, List.zip_nil_right, List.mem_cons] at hpr
      rcases hpr with rfl | rfl | rfl | hpr
      · exact List.Perm.refl _
      · exact List.Perm.refl _
      · exact List.Perm.refl _
      · simp at hpr)
    (by decide)
  refine ⟨h.1, ?_⟩
  apply h.2.1 (sampleEnvelope "1")
  rw [hch]
  simp
